import Mathlib

/-!
Verification of the `io_uring_echo` repository: a single-threaded TCP echo
server driven by an io_uring completion ring.

The development shallowly embeds the two source modules:

* `src/slab.rs`  — the `Slab<T>` handle table: a growable vector paired with a
  word-grained occupancy bitmap (`usize` words, 64 bits each);
* `src/server.rs` — the `EchoServer`: accept-credit refill (`push_accepts`),
  the submit-and-wait error policy, and the per-completion dispatch loop of
  `tick` (one Lean function, `handle_cqe`, per loop body iteration).

Machine integers are modelled as `Nat` (for `usize`/`u16`/`u64` values, with
explicit 64-bit masks where the Rust code manipulates `usize` words) and `Int`
(for `i32` results and raw file descriptors).  Rust panics (failed `assert!`,
`.unwrap()` on `None`/`Err`) are modelled by `Except Unit`, the `.error ()`
case standing for a panic.  Kernel effects (submission-queue pushes, `close`
calls, log lines) are returned as explicit event lists.
-/

deriving instance DecidableEq for Except

namespace IoUringEcho

/-! ## Slab (`src/slab.rs`)

`usize::BITS` is 64 on the target platform; the literal `64` below plays that
role throughout. -/

/-- Fuel-bounded count of trailing one bits; `trailingOnesAux 64 w` is Rust's
`usize::trailing_ones` for a 64-bit word `w` (the fuel is the bit width, so the
count saturates at 64 exactly as the hardware instruction does). -/
def trailingOnesAux : Nat → Nat → Nat
  | 0, _ => 0
  | fuel + 1, w => if w % 2 = 1 then trailingOnesAux fuel (w / 2) + 1 else 0

/-- Rust `w.trailing_ones()` for a `usize` word `w`. -/
def trailing_ones (w : Nat) : Nat := trailingOnesAux 64 w

/-- `Slab<T>` from `src/slab.rs`: the backing vector `inner` and the occupancy
bitmap `bitmap` (a vector of 64-bit words; bit set = slot inhabited). -/
structure Slab (T : Type) where
  inner : List T
  bitmap : List Nat
  deriving DecidableEq, Repr

namespace Slab

variable {T : Type}

/-- `Slab::with_capacity`: empty vector, `cap / usize::BITS + 1` zero words. -/
def with_capacity (cap : Nat) : Slab T :=
  { inner := [], bitmap := List.replicate (cap / 64 + 1) 0 }

/-- `Slab::get_bitmap_idx`: word index and bit position for slot `idx`. -/
def get_bitmap_idx (idx : Nat) : Nat × Nat :=
  (idx / 64, idx % 64)

/-- `Slab::mark_free`: `bitmap[map_idx] &= !(1 << bit_idx)`.  Rust `!` on
`usize` complements within 64 bits, hence the xor with `2^64 - 1`.  The Rust
indexing would panic for `map_idx` out of range; every use in this repository
(and in the theorems below) stays in range, and `List.set` is then exact. -/
def mark_free (s : Slab T) (idx : Nat) : Slab T :=
  let p := get_bitmap_idx idx
  { s with bitmap :=
      s.bitmap.set p.1 ((s.bitmap.getD p.1 0) &&& ((2 ^ 64 - 1) ^^^ (1 <<< p.2))) }

/-- `Slab::mark_vacant` (the source's name for setting the occupancy bit):
`bitmap[map_idx] |= 1 << bit_idx`. -/
def mark_vacant (s : Slab T) (idx : Nat) : Slab T :=
  let p := get_bitmap_idx idx
  { s with bitmap :=
      s.bitmap.set p.1 ((s.bitmap.getD p.1 0) ||| (1 <<< p.2)) }

/-- Helper for `get_free`, mirroring
`bitmap.iter().enumerate().find(|bm| bm.trailing_ones() != BITS)` followed by
`idx * BITS + trailing_ones`: the word offset is accumulated as `64 +` per
discarded all-ones word, which computes the same index. -/
def get_free_go : List Nat → Option Nat
  | [] => none
  | w :: ws =>
    if trailing_ones w ≠ 64 then some (trailing_ones w)
    else (get_free_go ws).map (fun a => 64 + a)

/-- `Slab::get_free`: index of the first clear occupancy bit, discarded when it
lies at or past the end of `inner` (the `.filter(|&idx| idx < len)` step). -/
def get_free (s : Slab T) : Option Nat :=
  (get_free_go s.bitmap).filter (fun idx => idx < s.inner.length)

/-- `Slab::insert`: reuse the first free in-bounds slot, otherwise append
(growing the bitmap by one word when the new index crosses a word boundary);
either way set the occupancy bit.  Returns the index and the new slab. -/
def insert (s : Slab T) (element : T) : Nat × Slab T :=
  match s.get_free with
  | some idx => (idx, mark_vacant { s with inner := s.inner.set idx element } idx)
  | none =>
    let idx := s.inner.length
    let grown : Slab T :=
      { inner := s.inner ++ [element],
        bitmap := if idx = s.bitmap.length * 64 then s.bitmap ++ [1] else s.bitmap }
    (idx, mark_vacant grown idx)

/-- `Slab::is_vacant` (the source's name for "occupancy bit set"): `assert!`
that `idx` is within the inner vector, then test the bit.  The failed assert is
the `.error ()` case. -/
def is_vacant (s : Slab T) (idx : Nat) : Except Unit Bool :=
  if idx < s.inner.length then
    let p := get_bitmap_idx idx
    .ok (((s.bitmap.getD p.1 0) &&& (1 <<< p.2)) ≠ 0)
  else
    .error ()

/-- `Slab::get`: `Some(&inner[idx])` when the occupancy bit is set, `None`
otherwise; propagates the `is_vacant` panic on an out-of-bounds index. -/
def get (s : Slab T) (idx : Nat) : Except Unit (Option T) :=
  match s.is_vacant idx with
  | .error e => .error e
  | .ok true => .ok s.inner[idx]?
  | .ok false => .ok none

/-- `Slab::get_mut`: same observable behaviour as `get` (a mutable reference
instead of a shared one). -/
def get_mut (s : Slab T) (idx : Nat) : Except Unit (Option T) :=
  match s.is_vacant idx with
  | .error e => .error e
  | .ok true => .ok s.inner[idx]?
  | .ok false => .ok none

/-- Assignment through the mutable reference returned by `get_mut`
(`*token = ...` in `server.rs`): overwrite slot `idx` in place. -/
def set_at (s : Slab T) (idx : Nat) (v : T) : Slab T :=
  { s with inner := s.inner.set idx v }

/-- Observer: occupancy bit of slot `i` (false when the word lies beyond the
bitmap, matching a never-touched slot). -/
def bit (s : Slab T) (i : Nat) : Bool :=
  (s.bitmap.getD (i / 64) 0).testBit (i % 64)

/-- Structural invariant tying the two vectors together: the bitmap always has
a bit for every inner slot.  `with_capacity` establishes it and every operation
preserves it. -/
def Wf (s : Slab T) : Prop :=
  s.inner.length ≤ 64 * s.bitmap.length

/-- Every in-bounds slot is inhabited. -/
def FullyOccupied (s : Slab T) : Prop :=
  ∀ i < s.inner.length, s.bit i = true

instance wf_decidable (s : Slab T) : Decidable s.Wf := by
  unfold Wf; infer_instance

instance fullyOccupied_decidable (s : Slab T) : Decidable s.FullyOccupied := by
  unfold FullyOccupied; infer_instance

/-- Sequence of insertions; returns the handles in order plus the final slab. -/
def insertMany : Slab T → List T → List Nat × Slab T
  | s, [] => ([], s)
  | s, v :: vs =>
    let r := s.insert v
    let rest := insertMany r.2 vs
    (r.1 :: rest.1, rest.2)

/-- Sequence of `mark_free` calls. -/
def freeMany (s : Slab T) (hs : List Nat) : Slab T :=
  hs.foldl mark_free s

end Slab

open Slab

/-! ## Slab lemmas -/

/-- Word-level occupancy observer, used to reason about `get_free_go`. -/
def wordBit (ws : List Nat) (i : Nat) : Bool :=
  (ws.getD (i / 64) 0).testBit (i % 64)

theorem trailingOnesAux_le (f w : Nat) : trailingOnesAux f w ≤ f := by
  induction f generalizing w with
  | zero => simp [trailingOnesAux]
  | succ f ih =>
    simp only [trailingOnesAux]
    split
    · exact Nat.succ_le_succ (ih _)
    · exact Nat.zero_le _

theorem testBit_of_lt_trailingOnesAux {f w i : Nat} (h : i < trailingOnesAux f w) :
    w.testBit i = true := by
  induction f generalizing w i with
  | zero => simp [trailingOnesAux] at h
  | succ f ih =>
    simp only [trailingOnesAux] at h
    split at h
    case isTrue hw =>
      cases i with
      | zero => simp [Nat.testBit_zero, hw]
      | succ j =>
        rw [Nat.testBit_succ]
        exact ih (Nat.lt_of_succ_lt_succ h)
    case isFalse hw => omega

theorem testBit_trailingOnesAux {f w : Nat} (h : trailingOnesAux f w < f) :
    w.testBit (trailingOnesAux f w) = false := by
  induction f generalizing w with
  | zero => omega
  | succ f ih =>
    by_cases hw : w % 2 = 1
    · simp only [trailingOnesAux, if_pos hw] at h ⊢
      rw [Nat.testBit_succ]
      exact ih (by omega)
    · simp only [trailingOnesAux, if_neg hw] at h ⊢
      simp [Nat.testBit_zero, hw]

theorem wordBit_cons_lt {w : Nat} {ws : List Nat} {i : Nat} (h : i < 64) :
    wordBit (w :: ws) i = w.testBit i := by
  unfold wordBit
  rw [Nat.div_eq_of_lt h, Nat.mod_eq_of_lt h, List.getD_cons_zero]

theorem wordBit_cons_add {w : Nat} {ws : List Nat} {a : Nat} :
    wordBit (w :: ws) (64 + a) = wordBit ws a := by
  unfold wordBit
  have h1 : (64 + a) / 64 = a / 64 + 1 := by omega
  have h2 : (64 + a) % 64 = a % 64 := by omega
  rw [h1, h2, List.getD_cons_succ]

theorem get_free_go_eq_some {ws : List Nat} {a : Nat} (h : get_free_go ws = some a) :
    wordBit ws a = false ∧ (∀ i < a, wordBit ws i = true) ∧ a < 64 * ws.length := by
  induction ws generalizing a with
  | nil => simp [get_free_go] at h
  | cons w ws ih =>
    by_cases hw : trailing_ones w ≠ 64
    · rw [get_free_go, if_pos hw, Option.some.injEq] at h
      subst h
      have hlt : trailing_ones w < 64 :=
        Nat.lt_of_le_of_ne (trailingOnesAux_le 64 w) hw
      refine ⟨?_, ?_, ?_⟩
      · rw [wordBit_cons_lt hlt]
        exact testBit_trailingOnesAux hlt
      · intro i hi
        rw [wordBit_cons_lt (Nat.lt_trans hi hlt)]
        exact testBit_of_lt_trailingOnesAux hi
      · simp only [List.length_cons]
        omega
    · rw [get_free_go, if_neg hw] at h
      push_neg at hw
      rcases Option.map_eq_some'.mp h with ⟨b, hb, rfl⟩
      obtain ⟨hbfalse, hbbelow, hbbound⟩ := ih hb
      refine ⟨?_, ?_, ?_⟩
      · rw [wordBit_cons_add]
        exact hbfalse
      · intro i hi
        rcases Nat.lt_or_ge i 64 with h64 | h64
        · rw [wordBit_cons_lt h64]
          exact testBit_of_lt_trailingOnesAux (hw ▸ h64)
        · obtain ⟨j, rfl⟩ : ∃ j, i = 64 + j := ⟨i - 64, by omega⟩
          rw [wordBit_cons_add]
          exact hbbelow j (by omega)
      · simp only [List.length_cons]
        omega

theorem get_free_go_eq_none {ws : List Nat} (h : get_free_go ws = none) :
    ∀ i < 64 * ws.length, wordBit ws i = true := by
  induction ws with
  | nil => simp
  | cons w ws ih =>
    by_cases hw : trailing_ones w ≠ 64
    · rw [get_free_go, if_pos hw] at h
      exact absurd h (by simp)
    · rw [get_free_go, if_neg hw] at h
      push_neg at hw
      intro i hi
      rcases Nat.lt_or_ge i 64 with h64 | h64
      · rw [wordBit_cons_lt h64]
        exact testBit_of_lt_trailingOnesAux (hw ▸ h64)
      · obtain ⟨j, rfl⟩ : ∃ j, i = 64 + j := ⟨i - 64, by omega⟩
        rw [wordBit_cons_add]
        have hnone : get_free_go ws = none := by
          cases hgo : get_free_go ws with
          | none => rfl
          | some b => rw [hgo] at h; simp at h
        refine ih hnone j ?_
        simp only [List.length_cons] at hi
        omega

theorem bit_eq_wordBit {T : Type} (s : Slab T) (i : Nat) :
    s.bit i = wordBit s.bitmap i := rfl

theorem get_free_eq_some {T : Type} {s : Slab T} {m : Nat} (h : s.get_free = some m) :
    s.bit m = false ∧ m < s.inner.length ∧ ∀ i < m, s.bit i = true := by
  unfold Slab.get_free at h
  rcases Option.filter_eq_some.mp h with ⟨hmem, hlt⟩
  have hgo : get_free_go s.bitmap = some m := hmem
  obtain ⟨hfalse, hbelow, _⟩ := get_free_go_eq_some hgo
  exact ⟨hfalse, by simpa using hlt, fun i hi => hbelow i hi⟩

theorem get_free_eq_none {T : Type} {s : Slab T} (hWf : s.Wf) (h : s.get_free = none) :
    ∀ i < s.inner.length, s.bit i = true := by
  unfold Slab.get_free at h
  intro i hi
  cases hgo : get_free_go s.bitmap with
  | none =>
    have := get_free_go_eq_none hgo i
    exact this (by unfold Slab.Wf at hWf; omega)
  | some a =>
    rw [hgo] at h
    have ha : ¬ (a < s.inner.length) := by
      by_contra hc
      simp [Option.filter, hc] at h
    obtain ⟨_, hbelow, _⟩ := get_free_go_eq_some hgo
    exact hbelow i (by omega)

theorem bit_mark_free {T : Type} (s : Slab T) (idx i : Nat) :
    (s.mark_free idx).bit i = if i = idx then false else s.bit i := by
  unfold Slab.mark_free Slab.bit Slab.get_bitmap_idx
  simp only
  by_cases hin : idx / 64 < s.bitmap.length
  · by_cases hdiv : i / 64 = idx / 64
    · rw [hdiv, List.getD_eq_getElem?_getD, List.getElem?_set_self hin, Option.getD_some,
        Nat.shiftLeft_eq, one_mul, Nat.testBit_and, Nat.testBit_xor,
        Nat.testBit_two_pow_sub_one]
      by_cases heq : i = idx
      · subst heq
        simp [Nat.testBit_two_pow, Nat.mod_lt i (by omega : 0 < 64)]
      · have hmod : i % 64 ≠ idx % 64 := by omega
        have : (2 ^ (idx % 64)).testBit (i % 64) = false := by
          simp only [Nat.testBit_two_pow, decide_eq_false_iff_not]
          omega
        rw [this]
        simp only [Bool.xor_false, if_neg heq]
        have hm : i % 64 < 64 := Nat.mod_lt i (by omega)
        simp [hm, hdiv]
    · have hne : i ≠ idx := by
        intro hc; exact hdiv (by rw [hc])
      rw [List.getD_eq_getElem?_getD, List.getElem?_set_ne (by omega), if_neg hne,
        ← List.getD_eq_getElem?_getD]
  · rw [List.set_eq_of_length_le (by omega)]
    by_cases heq : i = idx
    · subst heq
      rw [if_pos rfl, List.getD_eq_default _ _ (by omega)]
      exact Nat.zero_testBit _
    · rw [if_neg heq]

theorem bit_mark_vacant {T : Type} (s : Slab T) {idx : Nat} (hin : idx / 64 < s.bitmap.length)
    (i : Nat) :
    (s.mark_vacant idx).bit i = if i = idx then true else s.bit i := by
  unfold Slab.mark_vacant Slab.bit Slab.get_bitmap_idx
  simp only
  by_cases hdiv : i / 64 = idx / 64
  · rw [hdiv, List.getD_eq_getElem?_getD, List.getElem?_set_self hin, Option.getD_some,
      Nat.shiftLeft_eq, one_mul, Nat.testBit_or]
    by_cases heq : i = idx
    · subst heq
      simp [Nat.testBit_two_pow]
    · have hmod : i % 64 ≠ idx % 64 := by omega
      have : (2 ^ (idx % 64)).testBit (i % 64) = false := by
        simp only [Nat.testBit_two_pow, decide_eq_false_iff_not]
        omega
      rw [this]
      simp only [Bool.or_false, if_neg heq]
  · have hne : i ≠ idx := by
      intro hc; exact hdiv (by rw [hc])
    rw [List.getD_eq_getElem?_getD, List.getElem?_set_ne (by omega), if_neg hne,
      ← List.getD_eq_getElem?_getD]

theorem mark_free_inner {T : Type} (s : Slab T) (idx : Nat) :
    (s.mark_free idx).inner = s.inner := rfl

theorem mark_free_bitmap_length {T : Type} (s : Slab T) (idx : Nat) :
    (s.mark_free idx).bitmap.length = s.bitmap.length := by
  simp [Slab.mark_free]

theorem mark_free_wf {T : Type} {s : Slab T} (hWf : s.Wf) (idx : Nat) :
    (s.mark_free idx).Wf := by
  unfold Slab.Wf at hWf ⊢
  rw [mark_free_inner, mark_free_bitmap_length]
  exact hWf

theorem mark_vacant_inner {T : Type} (s : Slab T) (idx : Nat) :
    (s.mark_vacant idx).inner = s.inner := rfl

theorem mark_vacant_bitmap_length {T : Type} (s : Slab T) (idx : Nat) :
    (s.mark_vacant idx).bitmap.length = s.bitmap.length := by
  simp [Slab.mark_vacant]

theorem insert_eq_of_get_free_some {T : Type} {s : Slab T} {m : Nat}
    (h : s.get_free = some m) (v : T) :
    s.insert v = (m, Slab.mark_vacant { s with inner := s.inner.set m v } m) := by
  unfold Slab.insert
  rw [h]

theorem insert_eq_of_get_free_none {T : Type} {s : Slab T}
    (h : s.get_free = none) (v : T) :
    s.insert v = (s.inner.length,
      Slab.mark_vacant
        { inner := s.inner ++ [v],
          bitmap := if s.inner.length = s.bitmap.length * 64 then s.bitmap ++ [1]
                    else s.bitmap }
        s.inner.length) := by
  unfold Slab.insert
  rw [h]

theorem insert_spec_reuse {T : Type} {s : Slab T} {m : Nat} (hWf : s.Wf)
    (h : s.get_free = some m) (v : T) :
    (s.insert v).1 = m ∧
    (s.insert v).2.inner.length = s.inner.length ∧
    (∀ i, (s.insert v).2.bit i = if i = m then true else s.bit i) ∧
    (∀ i, (s.insert v).2.inner[i]? = if i = m then some v else s.inner[i]?) ∧
    (s.insert v).2.Wf := by
  obtain ⟨hbm, hmlen, hmin⟩ := get_free_eq_some h
  have hdiv : m / 64 < s.bitmap.length := by
    unfold Slab.Wf at hWf
    omega
  rw [insert_eq_of_get_free_some h v]
  set s1 : Slab T := { s with inner := s.inner.set m v } with hs1
  have hs1bitmap : s1.bitmap = s.bitmap := rfl
  have hs1len : s1.inner.length = s.inner.length := by
    simp [hs1]
  refine ⟨rfl, ?_, ?_, ?_, ?_⟩
  · rw [mark_vacant_inner]
    exact hs1len
  · intro i
    rw [bit_mark_vacant s1 (by rw [hs1bitmap]; exact hdiv) i]
    rfl
  · intro i
    rw [mark_vacant_inner]
    by_cases heq : i = m
    · subst heq
      rw [if_pos rfl]
      exact List.getElem?_set_self hmlen
    · rw [if_neg heq]
      exact List.getElem?_set_ne (fun hc => heq hc.symm)
  · unfold Slab.Wf at hWf ⊢
    rw [mark_vacant_inner, mark_vacant_bitmap_length, hs1bitmap, hs1len]
    exact hWf

theorem insert_spec_append {T : Type} {s : Slab T} (hWf : s.Wf)
    (h : s.get_free = none) (v : T) :
    (s.insert v).1 = s.inner.length ∧
    (s.insert v).2.inner.length = s.inner.length + 1 ∧
    (∀ i, (s.insert v).2.bit i = if i = s.inner.length then true else s.bit i) ∧
    (∀ i, (s.insert v).2.inner[i]? = if i = s.inner.length then some v
                                     else s.inner[i]?) ∧
    (s.insert v).2.Wf := by
  rw [insert_eq_of_get_free_none h v]
  set N := s.inner.length with hN
  by_cases hgrow : N = s.bitmap.length * 64
  · set g : Slab T := { inner := s.inner ++ [v], bitmap := s.bitmap ++ [1] } with hg
    have hsel : (if N = s.bitmap.length * 64 then s.bitmap ++ [1] else s.bitmap)
        = s.bitmap ++ [1] := if_pos hgrow
    rw [hsel]
    have hglen : g.inner.length = N + 1 := by
      simp [hg, hN]
    have hgdiv : N / 64 < g.bitmap.length := by
      simp only [hg, List.length_append, List.length_singleton]
      omega
    have hgbit : ∀ i, i ≠ N → g.bit i = s.bit i := by
      intro i hne
      unfold Slab.bit
      simp only [hg]
      rcases Nat.lt_trichotomy (i / 64) s.bitmap.length with hlt | heq | hgt
      · rw [List.getD_eq_getElem?_getD, List.getElem?_append_left hlt,
          ← List.getD_eq_getElem?_getD]
      · rw [List.getD_eq_getElem?_getD, heq, List.getElem?_concat_length,
          Option.getD_some, List.getD_eq_default _ _ (by omega)]
        have hmodpos : 0 < i % 64 := by omega
        rw [Nat.zero_testBit]
        rcases Nat.lt_or_ge (i % 64) 1 with hm | hm
        · omega
        · have : (1 : Nat).testBit (i % 64) = false :=
            Nat.testBit_eq_false_of_lt (by
              calc (1 : Nat) < 2 ^ 1 := by norm_num
              _ ≤ 2 ^ (i % 64) := Nat.pow_le_pow_right (by omega) hm)
          rw [this]
      · rw [List.getD_eq_default _ _ (by simp; omega),
          List.getD_eq_default _ _ (by omega)]
    refine ⟨rfl, ?_, ?_, ?_, ?_⟩
    · rw [mark_vacant_inner]
      exact hglen
    · intro i
      rw [bit_mark_vacant g hgdiv i]
      by_cases heq : i = N
      · simp [heq]
      · rw [if_neg heq, if_neg heq, hgbit i heq]
    · intro i
      rw [mark_vacant_inner]
      simp only [hg]
      by_cases heq : i = N
      · subst heq
        rw [if_pos rfl, hN, List.getElem?_concat_length]
      · rw [if_neg heq]
        rcases Nat.lt_or_ge i N with hlt | hge
        · exact List.getElem?_append_left hlt
        · rw [List.getElem?_len_le (l := s.inner) hge,
            List.getElem?_len_le (by simp [hN]; omega)]
    · unfold Slab.Wf
      rw [mark_vacant_inner, mark_vacant_bitmap_length, hglen]
      simp only [hg, List.length_append, List.length_singleton]
      omega
  · set g : Slab T := { inner := s.inner ++ [v], bitmap := s.bitmap } with hg
    have hsel : (if N = s.bitmap.length * 64 then s.bitmap ++ [1] else s.bitmap)
        = s.bitmap := if_neg hgrow
    rw [hsel]
    have hNlt : N < 64 * s.bitmap.length := by
      unfold Slab.Wf at hWf
      omega
    have hglen : g.inner.length = N + 1 := by
      simp [hg, hN]
    have hgdiv : N / 64 < g.bitmap.length := by
      simp only [hg]
      omega
    have hgbit : ∀ i, g.bit i = s.bit i := fun i => rfl
    refine ⟨rfl, ?_, ?_, ?_, ?_⟩
    · rw [mark_vacant_inner]
      exact hglen
    · intro i
      rw [bit_mark_vacant g hgdiv i]
      by_cases heq : i = N
      · simp [heq]
      · rw [if_neg heq, if_neg heq, hgbit i]
    · intro i
      rw [mark_vacant_inner]
      simp only [hg]
      by_cases heq : i = N
      · subst heq
        rw [if_pos rfl, hN, List.getElem?_concat_length]
      · rw [if_neg heq]
        rcases Nat.lt_or_ge i N with hlt | hge
        · exact List.getElem?_append_left hlt
        · rw [List.getElem?_len_le (l := s.inner) hge,
            List.getElem?_len_le (by simp [hN]; omega)]
    · unfold Slab.Wf
      rw [mark_vacant_inner, mark_vacant_bitmap_length, hglen]
      simp only [hg]
      omega

theorem decide_and_shift (w b : Nat) :
    decide ((w &&& (1 <<< b)) ≠ 0) = w.testBit b := by
  rw [Nat.shiftLeft_eq, one_mul, Nat.and_two_pow]
  cases h : w.testBit b
  · simp
  · simp only [Bool.toNat_true, one_mul, ne_eq, decide_eq_true_eq]
    exact (Nat.two_pow_pos b).ne'

theorem get_eq {T : Type} (s : Slab T) (idx : Nat) :
    s.get idx = if idx < s.inner.length then
        .ok (if s.bit idx then s.inner[idx]? else none)
      else .error () := by
  unfold Slab.get Slab.is_vacant Slab.get_bitmap_idx
  by_cases hlen : idx < s.inner.length
  · simp only [if_pos hlen]
    have : s.bit idx = (s.bitmap.getD (idx / 64) 0).testBit (idx % 64) := rfl
    rw [this]
    rw [show (decide (s.bitmap.getD (idx / 64) 0 &&& 1 <<< (idx % 64) ≠ 0))
        = (s.bitmap.getD (idx / 64) 0).testBit (idx % 64) from
      decide_and_shift _ _] at *
    cases hb : (s.bitmap.getD (idx / 64) 0).testBit (idx % 64) <;> simp [hb]
  · simp [if_neg hlen]

theorem get_mut_eq_get {T : Type} (s : Slab T) (idx : Nat) :
    s.get_mut idx = s.get idx := rfl

theorem with_capacity_wf {T : Type} (cap : Nat) : (Slab.with_capacity cap : Slab T).Wf := by
  simp [Slab.with_capacity, Slab.Wf]

theorem bit_with_capacity {T : Type} (cap i : Nat) :
    (Slab.with_capacity cap : Slab T).bit i = false := by
  unfold Slab.bit Slab.with_capacity
  simp only [List.getD_eq_getElem?_getD, List.getElem?_replicate]
  by_cases h : i / 64 < cap / 64 + 1 <;> simp [h, Nat.zero_testBit]

/-! ## EchoServer (`src/server.rs`)

File descriptors and completion results are `i32` in the source, modelled as
`Int`; `user_data` is a `u64` converted to `usize`, modelled as `Nat`.  The
submission queue is modelled by its remaining free-entry count `sqFree`
(a `push` fails exactly when it is zero) together with the list of entries
pushed; the entries record the opcode fields the source fills in. -/

/-- `OpType` from `src/server.rs`.  A `Read`/`Write` buffer is a byte list. -/
inductive OpType where
  | Accept : OpType
  | Poll (fd : Int) : OpType
  | Read (fd : Int) (buf : List Nat) : OpType
  | Write (fd : Int) (buf : List Nat) (offset : Nat) (len : Nat) : OpType
  deriving DecidableEq, Repr

/-- A completion-queue entry: `cqe.result()` and `cqe.user_data()`. -/
structure Cqe where
  result : Int
  user_data : Nat
  deriving DecidableEq, Repr

/-- A submission-queue entry as built in `server.rs`: opcode plus the fields
the source passes (for `send`, the address is `buf.as_ptr()` and the length
argument is recorded in `send_len`; the bytes the kernel would transmit are
`buf.take send_len`). -/
inductive Sqe where
  | accept (user_data : Nat) : Sqe
  | poll_add (fd : Int) (user_data : Nat) : Sqe
  | recv (fd : Int) (buf_len : Nat) (user_data : Nat) : Sqe
  | send (fd : Int) (buf : List Nat) (send_len : Nat) (user_data : Nat) : Sqe
  deriving DecidableEq, Repr

/-- Log output of `tick` (`eprintln!` / `println!` calls). -/
inductive LogEvent where
  | token_error (usr : Nat) (errno : Int) : LogEvent
  | not_registered (usr : Nat) : LogEvent
  | exit_msg : LogEvent
  deriving DecidableEq, Repr

/-- The mutable state of `EchoServer`: the accept-credit counter `count`
(`u16` in the source, bounded by the configured capacity in every reachable
state) and the token table `token_ops`.  The listener descriptor is `fd`. -/
structure EchoServerSt where
  fd : Int
  count : Nat
  token_ops : Slab OpType
  deriving DecidableEq, Repr

/-- Result of processing one completion-queue entry in `tick`'s loop: the new
server state, the remaining submission-queue space, and the effect lists. -/
structure CqeOut where
  st : EchoServerSt
  sqFree : Nat
  pushed : List Sqe
  closed : List Int
  logs : List LogEvent
  deriving DecidableEq, Repr

/-- `EBUSY` as in `server.rs`. -/
def EBUSY : Int := 16

/-- `ECONNRESET` as in `server.rs`. -/
def ECONNRESET : Int := 104

/-- The pure core of `EchoServer::new` (ring and listener creation are kernel
calls; the `count.is_power_of_two()` assert guards static configuration, which
the spec scopes out): ring size `count * 2`, a slab of that capacity, and the
first slot reserved for `Accept` so that handle `0` is the accept sentinel. -/
def EchoServer.new (count : Nat) (fd : Int) : EchoServerSt :=
  let ring_size := count * 2
  let token_ops := ((Slab.with_capacity ring_size : Slab OpType).insert OpType.Accept).2
  { fd := fd, count := count, token_ops := token_ops }

/-- The `while self.count > 0` loop of `EchoServer::push_accepts`: each
successful push decrements `count`; a failed push (submission queue full,
`sqFree = 0`) breaks out.  Returns the new `count`, the remaining queue space,
and the entries pushed (every one `accept` tagged with user_data 0). -/
def push_accepts_go : Nat → Nat → Nat × Nat × List Sqe
  | 0, sqFree => (0, sqFree, [])
  | count + 1, sqFree =>
    if sqFree = 0 then (count + 1, sqFree, [])
    else
      let r := push_accepts_go count (sqFree - 1)
      (r.1, r.2.1, Sqe.accept 0 :: r.2.2)

/-- `EchoServer::push_accepts`. -/
def push_accepts (st : EchoServerSt) (sqFree : Nat) :
    EchoServerSt × Nat × List Sqe :=
  let r := push_accepts_go st.count sqFree
  ({ st with count := r.1 }, r.2.1, r.2.2)

/-- One iteration of the completion-drain loop in `EchoServer::tick`
(`for cqe in &mut cq { ... }`), translated branch by branch:

* negative result: log unless `ECONNRESET`, then `token_ops.get(usr).unwrap()`
  (panic when the handle is unregistered or out of bounds), close the carried
  descriptor if any, `mark_free` the handle;
* non-negative result: look the handle up, log-and-skip when unregistered
  (in bounds), panic on an out-of-bounds handle, else dispatch on the state.
  Each `sq.push(...).unwrap()` panics when the queue is full (`sqFree = 0`).

The `.error ()` value stands for a Rust panic. -/
def handle_cqe (st : EchoServerSt) (sqFree : Nat) (cqe : Cqe) :
    Except Unit CqeOut :=
  let ret := cqe.result
  let usr := cqe.user_data
  if ret < 0 then
    let logs := if -ret = ECONNRESET then [] else [LogEvent.token_error usr (-ret)]
    match st.token_ops.get usr with
    | .error _ => .error ()
    | .ok none => .error ()
    | .ok (some op) =>
      let closed := match op with
        | .Poll fd => [fd]
        | .Read fd _ => [fd]
        | .Write fd _ _ _ => [fd]
        | .Accept => []
      .ok ⟨{ st with token_ops := st.token_ops.mark_free usr }, sqFree, [], closed, logs⟩
  else
    match st.token_ops.get usr with
    | .error _ => .error ()
    | .ok none => .ok ⟨st, sqFree, [], [], [LogEvent.not_registered usr]⟩
    | .ok (some op) =>
      match op with
      | .Accept =>
        let r := st.token_ops.insert (OpType.Poll ret)
        if sqFree = 0 then .error ()
        else .ok ⟨{ st with token_ops := r.2, count := st.count + 1 }, sqFree - 1,
                  [Sqe.poll_add ret r.1], [], []⟩
      | .Poll fd =>
        let buf : List Nat := List.replicate 4096 0
        match st.token_ops.get_mut usr with
        | .error _ => .error ()
        | .ok none => .ok ⟨st, sqFree, [], [], []⟩
        | .ok (some _) =>
          let slab1 := st.token_ops.set_at usr (OpType.Read fd buf)
          if sqFree = 0 then .error ()
          else .ok ⟨{ st with token_ops := slab1 }, sqFree - 1,
                    [Sqe.recv fd buf.length usr], [], []⟩
      | .Read fd buf =>
        if ret = 0 then
          .ok ⟨{ st with token_ops := st.token_ops.mark_free usr }, sqFree, [],
               [fd], [LogEvent.exit_msg]⟩
        else
          match st.token_ops.get_mut usr with
          | .error _ => .error ()
          | .ok none => .ok ⟨st, sqFree, [], [], []⟩
          | .ok (some _) =>
            let len := ret.toNat
            let slab1 := st.token_ops.set_at usr (OpType.Write fd buf 0 len)
            if sqFree = 0 then .error ()
            else .ok ⟨{ st with token_ops := slab1 }, sqFree - 1,
                      [Sqe.send fd buf buf.length usr], [], []⟩
      | .Write fd buf offset len =>
        let write_len := ret.toNat
        match st.token_ops.get_mut usr with
        | .error _ => .error ()
        | .ok none => .ok ⟨st, sqFree, [], [], []⟩
        | .ok (some _) =>
          if offset + write_len ≥ len then
            let slab1 := st.token_ops.set_at usr (OpType.Poll fd)
            if sqFree = 0 then .error ()
            else .ok ⟨{ st with token_ops := slab1 }, sqFree - 1,
                      [Sqe.poll_add fd usr], [], []⟩
          else
            let slab1 := st.token_ops.set_at usr (OpType.Write fd buf offset len)
            if sqFree = 0 then .error ()
            else .ok ⟨{ st with token_ops := slab1 }, sqFree - 1,
                      [Sqe.send fd buf buf.length usr], [], []⟩

/-- The whole completion-drain loop: fold `handle_cqe` over the queue contents
in arrival order, concatenating the effect lists. -/
def drain_cq (st : EchoServerSt) (sqFree : Nat) : List Cqe → Except Unit CqeOut
  | [] => .ok ⟨st, sqFree, [], [], []⟩
  | cqe :: rest => do
    let o1 ← handle_cqe st sqFree cqe
    let o2 ← drain_cq o1.st o1.sqFree rest
    .ok ⟨o2.st, o2.sqFree, o1.pushed ++ o2.pushed, o1.closed ++ o2.closed,
         o1.logs ++ o2.logs⟩

/-- Result of `submitter.submit_and_wait(1)`: `Ok(n)` or an OS error whose
`raw_os_error()` may be absent. -/
inductive SubmitRes where
  | ok (n : Nat) : SubmitRes
  | err (raw_os_error : Option Int) : SubmitRes
  deriving DecidableEq, Repr

/-- Observable outcome of one `tick` call: `ok` with the final state and
effects, or `fatal` for the early `return Err(io::ErrorKind::Other)`. -/
inductive TickOutcome where
  | ok (out : CqeOut) : TickOutcome
  | fatal : TickOutcome
  deriving DecidableEq, Repr

/-- `EchoServer::tick`: refill accepts, submit-and-wait (an `EBUSY` failure is
swallowed, any other failure returns the error), then drain the completion
queue.  `cqes` is what `cq.sync()` makes visible this call; the accept refills
are prepended to the pushed-entry list. -/
def tick (st : EchoServerSt) (sqFree : Nat) (submit_res : SubmitRes)
    (cqes : List Cqe) : Except Unit TickOutcome :=
  let r := push_accepts st sqFree
  let proceed : Bool := match submit_res with
    | .ok _ => true
    | .err e => e = some EBUSY
  if proceed then do
    let o ← drain_cq r.1 r.2.1 cqes
    .ok (.ok ⟨o.st, o.sqFree, r.2.2 ++ o.pushed, o.closed, o.logs⟩)
  else
    .ok .fatal

/-- Reachable values of (accept credit, accepts outstanding on the ring),
starting from the constructor state `(capacity, 0)`.  The transitions are the
two code sites touching `count`: a successful `sq.push` in `push_accepts`
(one loop iteration, credit → ring) and the processing of one completion that
consumed a queued accept — incrementing the credit when `tick` runs the
`Accept` branch (`complete_accept`), or leaving it unchanged when the
completion fails or its handle is unregistered (`complete_lost`). -/
inductive AcceptReach (cap : Nat) : Nat → Nat → Prop where
  | init : AcceptReach cap cap 0
  | push {count inflight : Nat} : AcceptReach cap count inflight → 0 < count →
      AcceptReach cap (count - 1) (inflight + 1)
  | complete_accept {count inflight : Nat} : AcceptReach cap count inflight →
      0 < inflight → AcceptReach cap (count + 1) (inflight - 1)
  | complete_lost {count inflight : Nat} : AcceptReach cap count inflight →
      0 < inflight → AcceptReach cap count (inflight - 1)

/-! ## Concrete states used by the per-claim theorems -/

/-- A receive buffer whose first two bytes are the message "hi" and whose
remaining bytes are the zeroes `vec![0u8; ..]` left them as (the `Poll` branch
allocates these buffers with length 4096; a length-4 stand-in keeps concrete
evaluation shallow, and the theorems are proved for every buffer length). -/
def hiBuf : List Nat := [104, 105, 0, 0]

/-- Server with the accept sentinel at handle 0 and `Read{fd 7, hiBuf}` at
handle 1: the state right before a `Recv` completion for "hi" is processed. -/
def stRead : EchoServerSt :=
  { fd := 3, count := 1,
    token_ops := ((EchoServer.new 2 3).token_ops.insert (OpType.Read 7 hiBuf)).2 }

/-- Server whose handle 1 was registered (as `Poll 5`) and then freed: a stale
handle with no registered state, within the table's bounds. -/
def stStale : EchoServerSt :=
  { fd := 3, count := 2,
    token_ops := ((EchoServer.new 2 3).token_ops.insert (OpType.Poll 5)).2.mark_free 1 }

/-- Server with a `Write{fd 3, [1,2,3,4,5], offset 0, len 5}` at handle 1. -/
def stWrite : EchoServerSt :=
  { fd := 3, count := 2,
    token_ops := ((EchoServer.new 2 3).token_ops.insert
      (OpType.Write 3 [1, 2, 3, 4, 5] 0 5)).2 }

/-- Fully occupied two-slot slab: sentinel plus a `Read` on fd 5. -/
def slabRead : Slab OpType :=
  (((Slab.with_capacity 4 : Slab OpType).insert OpType.Accept).2.insert
    (OpType.Read 5 [7])).2

/-- Three-element slab of naturals with handle 1 freed. -/
def slabFreed1 : Slab Nat :=
  ((((Slab.with_capacity 4 : Slab Nat).insert 10).2.insert 20).2.insert 30).2.mark_free 1

/-! ## C1 -/

/-- C1: the claim says the send submitted after a `Read` completion with
result `n > 0` carries exactly the `n` bytes just received (`buf[..n]`).  The
code instead builds `Send::new(fd, buf.as_ptr(), buf.len())`: for EVERY buffer
and every `n > 0` the submitted send's length argument is `buf.length` — for
the buffers the `Poll` branch allocates that is 4096, not `n` — so the bytes
handed to the kernel are the whole buffer, the `n` received bytes plus the
trailing zeroes, never `buf.take n` (unless `n` fills the buffer).  The spec's
echo round-trip property is the evident intent (the `Write` state even records
`len = n` for its completion check), making the `buf.len()` length argument a
code bug. -/
theorem c1_send_whole_buffer_not_received_bytes (st : EchoServerSt) (f : Nat)
    (cqe : Cqe) (fd : Int) (buf : List Nat)
    (hget : st.token_ops.get cqe.user_data = .ok (some (OpType.Read fd buf)))
    (hret : 0 < cqe.result)
    (hf : 0 < f) :
    handle_cqe st f cqe
      = .ok ⟨{ st with token_ops :=
                 st.token_ops.set_at cqe.user_data (OpType.Write fd buf 0 cqe.result.toNat) },
             f - 1, [Sqe.send fd buf buf.length cqe.user_data], [], []⟩ := by
  unfold handle_cqe
  rw [if_neg (by omega)]
  rw [hget]
  simp only [get_mut_eq_get, hget]
  rw [if_neg (by omega), if_neg (by omega)]

/-- C1 witness: at the concrete failing input — `Read{fd 7}` with the buffer
holding "hi" (2 received bytes, buffer length 4) completing with result 2 —
the pushed send has length 4 (`buf.length`), and 4 is not the received count
2; the sent bytes `buf.take 4` differ from the received `buf.take 2`. -/
theorem c1_send_whole_buffer_witness :
    handle_cqe stRead 8 ⟨2, 1⟩
      = .ok ⟨{ stRead with token_ops := stRead.token_ops.set_at 1 (OpType.Write 7 hiBuf 0 2) },
             7, [Sqe.send 7 hiBuf hiBuf.length 1], [], []⟩ ∧
    hiBuf.length ≠ 2 ∧ hiBuf.take hiBuf.length ≠ hiBuf.take 2 :=
  ⟨c1_send_whole_buffer_not_received_bytes stRead 8 ⟨2, 1⟩ 7 hiBuf
      (by decide) (by decide) (by decide),
   by decide, by decide⟩

/-! ## C2 -/

/-- C2 counterexample: a completion with negative result (`-9`, `EBADF`)
whose handle 1 has no registered state (freed, in bounds) makes `tick`'s loop
body panic — `token_ops.get(usr).unwrap()` on `None` — instead of logging and
skipping.  This refutes the claim's "regardless of whether the completion
result is negative or non-negative ... never panics". -/
theorem c2_stale_negative_panics :
    stStale.token_ops.get 1 = .ok none ∧
    handle_cqe stStale 8 ⟨-9, 1⟩ = .error () := by
  refine ⟨by decide, by decide⟩

/-- C2 amended: only for completions with non-negative result is a stale
in-bounds handle logged and skipped (state, queue space, submissions, closes
all untouched); a negative-result completion on a stale handle panics via the
`.unwrap()` in the error path. -/
theorem c2_stale_handle_dispatch (st : EchoServerSt) (f : Nat) (cqe : Cqe)
    (hget : st.token_ops.get cqe.user_data = .ok none) :
    (0 ≤ cqe.result →
      handle_cqe st f cqe = .ok ⟨st, f, [], [], [LogEvent.not_registered cqe.user_data]⟩) ∧
    (cqe.result < 0 → handle_cqe st f cqe = .error ()) := by
  constructor
  · intro hpos
    unfold handle_cqe
    rw [if_neg (by omega), hget]
  · intro hneg
    unfold handle_cqe
    rw [if_pos hneg, hget]

/-- C2 witness: the amended theorem applied at the concrete stale state. -/
theorem c2_stale_handle_dispatch_witness :
    handle_cqe stStale 8 ⟨5, 1⟩ = .ok ⟨stStale, 8, [], [], [LogEvent.not_registered 1]⟩ :=
  (c2_stale_handle_dispatch stStale 8 ⟨5, 1⟩ (by decide)).1 (by decide)

/-! ## C3 -/

/-- C3 counterexample: on the fresh server (sentinel handle 0 registered as
`Accept`), an `Accept` completion with negative result `-13` leaves handle 0
FREED — `get 0` answers "absent" afterwards — because the generic error path
calls `mark_free(usr)` for every state, `Accept` included.  This refutes the
claim's "does not free any handle-table entry (in particular the sentinel
handle 0 stays registered as the Accept state)". -/
theorem c3_accept_error_frees_sentinel :
    (EchoServer.new 2 3).token_ops.get 0 = .ok (some OpType.Accept) ∧
    (handle_cqe (EchoServer.new 2 3) 8 ⟨-13, 0⟩).map (fun o => o.st.token_ops.get 0)
      = .ok (.ok none) := by
  refine ⟨by decide, by decide⟩

/-- C3 amended: an `Accept` completion with negative result pushes no
operation and closes no descriptor, and it logs a diagnostic unless the error
is `ECONNRESET` — but it does free the completion's handle-table entry, so the
sentinel handle 0 is de-registered. -/
theorem c3_accept_error_behaviour (st : EchoServerSt) (f : Nat) (cqe : Cqe)
    (hneg : cqe.result < 0)
    (hget : st.token_ops.get cqe.user_data = .ok (some OpType.Accept)) :
    handle_cqe st f cqe
      = .ok ⟨{ st with token_ops := st.token_ops.mark_free cqe.user_data }, f, [], [],
             if -cqe.result = ECONNRESET then []
             else [LogEvent.token_error cqe.user_data (-cqe.result)]⟩ := by
  unfold handle_cqe
  rw [if_pos hneg, hget]

/-- C3 witness: the amended theorem at the fresh server and errno 13. -/
theorem c3_accept_error_behaviour_witness :
    handle_cqe (EchoServer.new 2 3) 8 ⟨-13, 0⟩
      = .ok ⟨{ EchoServer.new 2 3 with
                token_ops := (EchoServer.new 2 3).token_ops.mark_free 0 }, 8, [], [],
             if -(-13 : Int) = ECONNRESET then [] else [LogEvent.token_error 0 (-(-13 : Int))]⟩ :=
  c3_accept_error_behaviour (EchoServer.new 2 3) 8 ⟨-13, 0⟩ (by decide) (by decide)

/-! ## C4 -/

/-- C4 counterexample: a `Write{fd 3, buf [1,2,3,4,5], offset 0, len 5}`
completion with result 2 (partial: 0 + 2 < 5) stores back the state with
offset STILL 0 — not the claimed updated bookkeeping (offset 2).  The source
writes `*token = OpType::Write { fd, buf, offset, len }` with the destructured,
unmodified `offset`. -/
theorem c4_offset_not_updated :
    stWrite.token_ops.get 1 = .ok (some (OpType.Write 3 [1, 2, 3, 4, 5] 0 5)) ∧
    (0 : Nat) + 2 < 5 ∧
    (handle_cqe stWrite 8 ⟨2, 1⟩).map (fun o => o.st.token_ops.get 1)
      = .ok (.ok (some (OpType.Write 3 [1, 2, 3, 4, 5] 0 5))) ∧
    (handle_cqe stWrite 8 ⟨2, 1⟩).map (fun o => o.st.token_ops.get 1)
      ≠ .ok (.ok (some (OpType.Write 3 [1, 2, 3, 4, 5] 2 5))) := by
  refine ⟨by decide, by decide, by decide, by decide⟩

/-- C4 amended: on a `Write` completion with non-negative result `r` where
`offset + r < len`, `tick` resubmits a send on the same descriptor tagged with
the same handle, sending from the start of the buffer with the full buffer
length, and stores the state back as the same `Write{fd, buf, offset, len}` —
buffer and length unchanged and `offset` left unchanged (not advanced by
`r`). -/
theorem c4_partial_write_resubmit (st : EchoServerSt) (f : Nat) (cqe : Cqe)
    (fd : Int) (buf : List Nat) (offset len : Nat)
    (hret : 0 ≤ cqe.result)
    (hget : st.token_ops.get cqe.user_data = .ok (some (OpType.Write fd buf offset len)))
    (hmid : offset + cqe.result.toNat < len)
    (hf : 0 < f) :
    handle_cqe st f cqe
      = .ok ⟨{ st with token_ops :=
                 st.token_ops.set_at cqe.user_data (OpType.Write fd buf offset len) },
             f - 1, [Sqe.send fd buf buf.length cqe.user_data], [], []⟩ := by
  unfold handle_cqe
  rw [if_neg (by omega), hget]
  simp only [get_mut_eq_get, hget]
  rw [if_neg (by omega), if_neg (by omega)]

/-- C4 witness: the amended theorem at the concrete partial-write state. -/
theorem c4_partial_write_resubmit_witness :
    handle_cqe stWrite 8 ⟨2, 1⟩
      = .ok ⟨{ stWrite with token_ops :=
                 stWrite.token_ops.set_at 1 (OpType.Write 3 [1, 2, 3, 4, 5] 0 5) },
             7, [Sqe.send 3 [1, 2, 3, 4, 5] 5 1], [], []⟩ :=
  c4_partial_write_resubmit stWrite 8 ⟨2, 1⟩ 3 [1, 2, 3, 4, 5] 0 5
    (by decide) (by decide) (by decide) (by decide)

/-! ## C8 -/

/-- C8: `tick` returns the fatal error if and only if `submit_and_wait` failed
with an error other than `EBUSY` (including an error with no raw OS code); on
an `EBUSY` failure the error is swallowed and the very same invocation drains
the completion queue exactly as a successful submit would. -/
theorem c8_submit_error_policy (st : EchoServerSt) (f : Nat) (res : SubmitRes)
    (cqes : List Cqe) :
    (tick st f res cqes = .ok .fatal ↔ ∃ e, res = .err e ∧ e ≠ some EBUSY) ∧
    (∀ n, tick st f (.err (some EBUSY)) cqes = tick st f (.ok n) cqes) := by
  constructor
  · cases res with
    | ok n =>
      simp only [tick]
      constructor
      · intro h
        cases hd : drain_cq (push_accepts st f).1 (push_accepts st f).2.1 cqes with
        | error e => rw [hd] at h; simp [Bind.bind, Except.bind] at h
        | ok o => rw [hd] at h; simp [Bind.bind, Except.bind] at h
      · rintro ⟨e, he, _⟩
        exact absurd he (by simp)
    | err e =>
      by_cases he : e = some EBUSY
      · subst he
        simp only [tick]
        constructor
        · intro h
          cases hd : drain_cq (push_accepts st f).1 (push_accepts st f).2.1 cqes with
          | error a => rw [hd] at h; simp [Bind.bind, Except.bind] at h
          | ok o => rw [hd] at h; simp [Bind.bind, Except.bind] at h
        · rintro ⟨a, ha, hne⟩
          cases ha
          exact absurd rfl hne
      · constructor
        · intro _
          exact ⟨e, rfl, he⟩
        · intro _
          simp only [tick]
          rw [if_neg (by simpa using he)]
  · intro n
    simp [tick]

/-- C8 witness: a submit failure with no raw OS error code is fatal. -/
theorem c8_submit_error_policy_witness :
    tick (EchoServer.new 2 3) 8 (.err none) [] = .ok .fatal :=
  ((c8_submit_error_policy (EchoServer.new 2 3) 8 (.err none) []).1).mpr
    ⟨none, rfl, by decide⟩

/-! ## C9 -/

/-- C9: a `Read{d, buf}` completion with result exactly zero closes `d`, frees
the handle, pushes no further operation (terminal transition), and — here
shown for a fully occupied table — the next insertion returns that same handle
value, because the freed slot is the least free in-bounds index. -/
theorem c9_eof_clean_teardown (st : EchoServerSt) (f : Nat) (usr : Nat)
    (fd : Int) (buf : List Nat) (v : OpType)
    (hWf : st.token_ops.Wf)
    (hfull : st.token_ops.FullyOccupied)
    (hget : st.token_ops.get usr = .ok (some (OpType.Read fd buf))) :
    handle_cqe st f ⟨0, usr⟩
      = .ok ⟨{ st with token_ops := st.token_ops.mark_free usr }, f, [], [fd],
             [LogEvent.exit_msg]⟩ ∧
    ((st.token_ops.mark_free usr).insert v).1 = usr := by
  have husr : usr < st.token_ops.inner.length ∧ st.token_ops.bit usr = true := by
    rw [get_eq] at hget
    by_cases hlen : usr < st.token_ops.inner.length
    · rw [if_pos hlen] at hget
      refine ⟨hlen, ?_⟩
      by_contra hb
      rw [Bool.not_eq_true] at hb
      rw [hb] at hget
      simp at hget
    · rw [if_neg hlen] at hget
      simp at hget
  constructor
  · unfold handle_cqe
    rw [if_neg (by simp), hget]
    rfl
  · have hWf1 : (st.token_ops.mark_free usr).Wf := mark_free_wf hWf usr
    have hbit1 : ∀ i, (st.token_ops.mark_free usr).bit i
        = if i = usr then false else st.token_ops.bit i := bit_mark_free _ usr
    have hlen1 : (st.token_ops.mark_free usr).inner.length
        = st.token_ops.inner.length := by rw [mark_free_inner]
    cases hgf : (st.token_ops.mark_free usr).get_free with
    | none =>
      exfalso
      have := get_free_eq_none hWf1 hgf usr (by omega)
      rw [hbit1 usr, if_pos rfl] at this
      exact Bool.false_ne_true this
    | some a =>
      obtain ⟨hba, haN, _⟩ := get_free_eq_some hgf
      have haeq : a = usr := by
        by_contra hne
        rw [hbit1 a, if_neg hne] at hba
        have := hfull a (by omega)
        rw [this] at hba
        simp at hba
      subst haeq
      exact (insert_spec_reuse hWf1 hgf v).1

/-- C9 witness: a zero-result `Read` completion on handle 1 of a fully
occupied table closes fd 5, frees the handle, and an insertion into the freed
table returns handle 1 again. -/
theorem c9_eof_clean_teardown_witness :
    handle_cqe { fd := 3, count := 2, token_ops := slabRead } 8 ⟨0, 1⟩
      = .ok ⟨{ fd := 3, count := 2, token_ops := slabRead.mark_free 1 }, 8, [], [5],
             [LogEvent.exit_msg]⟩ ∧
    ((slabRead.mark_free 1).insert OpType.Accept).1 = 1 :=
  c9_eof_clean_teardown { fd := 3, count := 2, token_ops := slabRead } 8 1 5 [7]
    OpType.Accept (by decide) (by decide) (by decide)

/-! ## C10 -/

/-- Slot `i` is a legal landing place for `insert` on slab `s`: either a free
slot inside the current array, or the append position at the array's end. -/
def insertCandidate {T : Type} (s : Slab T) (i : Nat) : Prop :=
  (s.bit i = false ∧ i < s.inner.length) ∨ i = s.inner.length

/-- C10: `insert` always lands on the SMALLEST candidate index — the lowest
free in-bounds slot when one exists, the append position otherwise; no smaller
index is a candidate. -/
theorem c10_insert_returns_minimal_index {T : Type} (s : Slab T) (v : T)
    (hWf : s.Wf) :
    insertCandidate s (s.insert v).1 ∧
    ∀ j < (s.insert v).1, ¬ insertCandidate s j := by
  cases hgf : s.get_free with
  | some m =>
    obtain ⟨hbm, hmlen, hbelow⟩ := get_free_eq_some hgf
    have h1 : (s.insert v).1 = m := (insert_spec_reuse hWf hgf v).1
    rw [h1]
    refine ⟨Or.inl ⟨hbm, hmlen⟩, ?_⟩
    intro j hj hc
    rcases hc with ⟨hfree, _⟩ | hend
    · rw [hbelow j hj] at hfree
      simp at hfree
    · omega
  | none =>
    have hocc := get_free_eq_none hWf hgf
    have h1 : (s.insert v).1 = s.inner.length := (insert_spec_append hWf hgf v).1
    rw [h1]
    refine ⟨Or.inr rfl, ?_⟩
    intro j hj hc
    rcases hc with ⟨hfree, hlt⟩ | hend
    · rw [hocc j hlt] at hfree
      simp at hfree
    · omega

/-- C10 witness: on the concrete slab with handle 1 freed (slots 0, 2 still
occupied, length 3), `insert` returns exactly the lowest free slot, 1. -/
theorem c10_insert_returns_minimal_index_witness :
    (slabFreed1.insert 99).1 = 1 ∧ insertCandidate slabFreed1 (slabFreed1.insert 99).1 :=
  ⟨by decide, (c10_insert_returns_minimal_index slabFreed1 99 (by decide)).1⟩

/-! ## C7 -/

/-- C7: occupancy correctness of the handle table.  For a handle inside the
array's bounds, `get` never fails fatally and answers "absent" exactly when
the occupancy bit is clear (freed or never occupied, not yet reinserted);
`get_mut` agrees with `get`; a handle at or past the array's length fails
fatally; after `mark_free` the handle reads absent (other handles are
untouched); after `insert` the returned handle reads present with the stored
value. -/
theorem c7_occupancy_correctness {T : Type} (s : Slab T) (idx j : Nat) (v : T) :
    (idx < s.inner.length → ∃ r, s.get idx = .ok r) ∧
    (s.inner.length ≤ idx → s.get idx = .error ()) ∧
    (s.get_mut idx = s.get idx) ∧
    (idx < s.inner.length → (s.get idx = .ok none ↔ s.bit idx = false)) ∧
    ((s.mark_free idx).get idx = if idx < s.inner.length then .ok none else .error ()) ∧
    (j ≠ idx → (s.mark_free idx).get j = s.get j) ∧
    (s.Wf → (s.insert v).2.get (s.insert v).1 = .ok (some v)) := by
  refine ⟨?_, ?_, ?_, ?_, ?_, ?_, ?_⟩
  · intro h
    rw [get_eq, if_pos h]
    exact ⟨_, rfl⟩
  · intro h
    rw [get_eq, if_neg (by omega)]
  · exact get_mut_eq_get s idx
  · intro h
    rw [get_eq, if_pos h]
    cases hb : s.bit idx
    · simp
    · simp [List.getElem?_eq_getElem h]
  · rw [get_eq, mark_free_inner]
    by_cases h : idx < s.inner.length
    · rw [if_pos h, if_pos h, bit_mark_free, if_pos rfl]
      simp
    · rw [if_neg h, if_neg h]
  · intro hne
    rw [get_eq, get_eq, mark_free_inner, bit_mark_free, if_neg hne]
  · intro hWf
    cases hgf : s.get_free with
    | some m =>
      obtain ⟨h1, hlen, hbit, hval, _⟩ := insert_spec_reuse hWf hgf v
      obtain ⟨_, hmlen, _⟩ := get_free_eq_some hgf
      rw [get_eq, h1, hlen, if_pos hmlen, hbit m, hval m]
      simp
    | none =>
      obtain ⟨h1, hlen, hbit, hval, _⟩ := insert_spec_append hWf hgf v
      rw [get_eq, h1, hlen, if_pos (by omega), hbit _, hval _]
      simp

/-- C7 witness: on the concrete freed-slot slab — handle 1 freed, handles 0
and 2 occupied, length 3 — in-bounds queries answer without a panic, handle 1
reads absent exactly because its bit is clear, handle 3 is out of bounds and
panics, and inserting 99 makes its returned handle read present. -/
theorem c7_occupancy_correctness_witness :
    (∃ r, slabFreed1.get 1 = .ok r) ∧
    (slabFreed1.get 1 = .ok none ↔ slabFreed1.bit 1 = false) ∧
    slabFreed1.get 3 = .error () ∧
    (slabFreed1.insert 99).2.get (slabFreed1.insert 99).1 = .ok (some 99) :=
  ⟨(c7_occupancy_correctness slabFreed1 1 0 99).1 (by decide),
   (c7_occupancy_correctness slabFreed1 1 0 99).2.2.2.1 (by decide),
   (c7_occupancy_correctness slabFreed1 3 0 99).2.1 (by decide),
   (c7_occupancy_correctness slabFreed1 1 0 99).2.2.2.2.2.2 (by decide)⟩

/-! ## C5 -/

/-- The `push_accepts` loop bookkeeping: the final credit is the initial
credit minus the number of entries pushed, exactly `min count sqFree` entries
are pushed (all accepts tagged 0), and each push consumes one queue slot. -/
theorem push_accepts_go_spec (count f : Nat) :
    (push_accepts_go count f).1 = count - (push_accepts_go count f).2.2.length ∧
    (push_accepts_go count f).2.2.length = min count f ∧
    (push_accepts_go count f).2.1 = f - (push_accepts_go count f).2.2.length ∧
    ∀ e ∈ (push_accepts_go count f).2.2, e = Sqe.accept 0 := by
  induction count generalizing f with
  | zero => simp [push_accepts_go]
  | succ c ih =>
    by_cases hf : f = 0
    · subst hf
      simp [push_accepts_go]
    · obtain ⟨h1, h2, h3, h4⟩ := ih (f - 1)
      simp only [push_accepts_go, if_neg hf, List.length_cons]
      refine ⟨by omega, by omega, by omega, ?_⟩
      intro e he
      rcases List.mem_cons.mp he with rfl | he2
      · rfl
      · exact h4 e he2

/-- Credit movement of one completion: processing leaves `count` unchanged
except for the `Accept` success branch, which adds exactly 1. -/
theorem handle_cqe_count (st : EchoServerSt) (f : Nat) (cqe : Cqe) (out : CqeOut)
    (h : handle_cqe st f cqe = .ok out) :
    out.st.count = st.count +
      (if 0 ≤ cqe.result ∧ st.token_ops.get cqe.user_data = .ok (some OpType.Accept)
       then 1 else 0) := by
  by_cases hneg : cqe.result < 0
  · rw [if_neg (fun hc => absurd hc.1 (by omega))]
    cases hget : st.token_ops.get cqe.user_data with
    | error e =>
      have heq : handle_cqe st f cqe = .error () := by
        unfold handle_cqe
        rw [if_pos hneg, hget]
      rw [heq] at h
      exact Except.noConfusion h
    | ok o =>
      cases o with
      | none =>
        have heq : handle_cqe st f cqe = .error () := by
          unfold handle_cqe
          rw [if_pos hneg, hget]
        rw [heq] at h
        exact Except.noConfusion h
      | some op =>
        cases op with
        | Accept =>
          have heq : handle_cqe st f cqe
              = .ok ⟨{ st with token_ops := st.token_ops.mark_free cqe.user_data }, f, [], [],
                     (if -cqe.result = ECONNRESET then []
                      else [LogEvent.token_error cqe.user_data (-cqe.result)])⟩ := by
            unfold handle_cqe
            rw [if_pos hneg, hget]
          rw [heq] at h
          simp only [Except.ok.injEq] at h
          subst h
          simp
        | Poll fd =>
          have heq : handle_cqe st f cqe
              = .ok ⟨{ st with token_ops := st.token_ops.mark_free cqe.user_data }, f, [], [fd],
                     (if -cqe.result = ECONNRESET then []
                      else [LogEvent.token_error cqe.user_data (-cqe.result)])⟩ := by
            unfold handle_cqe
            rw [if_pos hneg, hget]
          rw [heq] at h
          simp only [Except.ok.injEq] at h
          subst h
          simp
        | Read fd buf =>
          have heq : handle_cqe st f cqe
              = .ok ⟨{ st with token_ops := st.token_ops.mark_free cqe.user_data }, f, [], [fd],
                     (if -cqe.result = ECONNRESET then []
                      else [LogEvent.token_error cqe.user_data (-cqe.result)])⟩ := by
            unfold handle_cqe
            rw [if_pos hneg, hget]
          rw [heq] at h
          simp only [Except.ok.injEq] at h
          subst h
          simp
        | Write fd buf offset len =>
          have heq : handle_cqe st f cqe
              = .ok ⟨{ st with token_ops := st.token_ops.mark_free cqe.user_data }, f, [], [fd],
                     (if -cqe.result = ECONNRESET then []
                      else [LogEvent.token_error cqe.user_data (-cqe.result)])⟩ := by
            unfold handle_cqe
            rw [if_pos hneg, hget]
          rw [heq] at h
          simp only [Except.ok.injEq] at h
          subst h
          simp
  · cases hget : st.token_ops.get cqe.user_data with
    | error e =>
      have heq : handle_cqe st f cqe = .error () := by
        unfold handle_cqe
        rw [if_neg hneg, hget]
      rw [heq] at h
      exact Except.noConfusion h
    | ok o =>
      cases o with
      | none =>
        have heq : handle_cqe st f cqe
            = .ok ⟨st, f, [], [], [LogEvent.not_registered cqe.user_data]⟩ := by
          unfold handle_cqe
          rw [if_neg hneg, hget]
        rw [heq] at h
        simp only [Except.ok.injEq] at h
        subst h
        simp [hget]
      | some op =>
        cases op with
        | Accept =>
          by_cases hf : f = 0
          · have heq : handle_cqe st f cqe = .error () := by
              unfold handle_cqe
              rw [if_neg hneg]
              simp only [hget]
              rw [if_pos hf]
            rw [heq] at h
            exact Except.noConfusion h
          · have heq : handle_cqe st f cqe
                = .ok ⟨{ st with
                          token_ops := (st.token_ops.insert (OpType.Poll cqe.result)).2,
                          count := st.count + 1 }, f - 1,
                       [Sqe.poll_add cqe.result
                          (st.token_ops.insert (OpType.Poll cqe.result)).1], [], []⟩ := by
              unfold handle_cqe
              rw [if_neg hneg]
              simp only [hget]
              rw [if_neg hf]
            rw [heq] at h
            simp only [Except.ok.injEq] at h
            subst h
            rw [if_pos ⟨by omega, rfl⟩]
        | Poll fd =>
          by_cases hf : f = 0
          · have heq : handle_cqe st f cqe = .error () := by
              unfold handle_cqe
              rw [if_neg hneg]
              simp only [hget, get_mut_eq_get]
              rw [if_pos hf]
            rw [heq] at h
            exact Except.noConfusion h
          · have heq : handle_cqe st f cqe
                = .ok ⟨{ st with token_ops :=
                          st.token_ops.set_at cqe.user_data (OpType.Read fd (List.replicate 4096 0)) },
                       f - 1,
                       [Sqe.recv fd (List.replicate 4096 0).length cqe.user_data],
                       [], []⟩ := by
              unfold handle_cqe
              rw [if_neg hneg]
              simp only [hget, get_mut_eq_get]
              rw [if_neg hf]
            rw [heq] at h
            simp only [Except.ok.injEq] at h
            subst h
            simp
        | Read fd buf =>
          by_cases hz : cqe.result = 0
          · have heq : handle_cqe st f cqe
                = .ok ⟨{ st with token_ops := st.token_ops.mark_free cqe.user_data },
                       f, [], [fd], [LogEvent.exit_msg]⟩ := by
              unfold handle_cqe
              rw [if_neg hneg]
              simp only [hget]
              rw [if_pos hz]
            rw [heq] at h
            simp only [Except.ok.injEq] at h
            subst h
            simp [hget]
          · by_cases hf : f = 0
            · have heq : handle_cqe st f cqe = .error () := by
                unfold handle_cqe
                rw [if_neg hneg]
                simp only [hget, get_mut_eq_get]
                rw [if_neg hz, if_pos hf]
              rw [heq] at h
              exact Except.noConfusion h
            · have heq : handle_cqe st f cqe
                  = .ok ⟨{ st with token_ops :=
                            st.token_ops.set_at cqe.user_data (OpType.Write fd buf 0 cqe.result.toNat) },
                         f - 1,
                         [Sqe.send fd buf buf.length cqe.user_data], [], []⟩ := by
                unfold handle_cqe
                rw [if_neg hneg]
                simp only [hget, get_mut_eq_get]
                rw [if_neg hz, if_neg hf]
              rw [heq] at h
              simp only [Except.ok.injEq] at h
              subst h
              simp
        | Write fd buf offset len =>
          by_cases hge : offset + cqe.result.toNat ≥ len
          · by_cases hf : f = 0
            · have heq : handle_cqe st f cqe = .error () := by
                unfold handle_cqe
                rw [if_neg hneg]
                simp only [hget, get_mut_eq_get]
                rw [if_pos hge, if_pos hf]
              rw [heq] at h
              exact Except.noConfusion h
            · have heq : handle_cqe st f cqe
                  = .ok ⟨{ st with token_ops :=
                            st.token_ops.set_at cqe.user_data (OpType.Poll fd) },
                         f - 1, [Sqe.poll_add fd cqe.user_data], [], []⟩ := by
                unfold handle_cqe
                rw [if_neg hneg]
                simp only [hget, get_mut_eq_get]
                rw [if_pos hge, if_neg hf]
              rw [heq] at h
              simp only [Except.ok.injEq] at h
              subst h
              simp
          · by_cases hf : f = 0
            · have heq : handle_cqe st f cqe = .error () := by
                unfold handle_cqe
                rw [if_neg hneg]
                simp only [hget, get_mut_eq_get]
                rw [if_neg hge, if_pos hf]
              rw [heq] at h
              exact Except.noConfusion h
            · have heq : handle_cqe st f cqe
                  = .ok ⟨{ st with token_ops :=
                            st.token_ops.set_at cqe.user_data (OpType.Write fd buf offset len) },
                         f - 1,
                         [Sqe.send fd buf buf.length cqe.user_data], [], []⟩ := by
                unfold handle_cqe
                rw [if_neg hneg]
                simp only [hget, get_mut_eq_get]
                rw [if_neg hge, if_neg hf]
              rw [heq] at h
              simp only [Except.ok.injEq] at h
              subst h
              simp

/-- Every reachable (credit, outstanding accepts) pair is bounded. -/
theorem acceptReach_bound {cap count inflight : Nat}
    (h : AcceptReach cap count inflight) : count + inflight ≤ cap := by
  induction h with
  | init => omega
  | push _ hpos ih => omega
  | complete_accept _ hpos ih => omega
  | complete_lost _ hpos ih => omega

/-- C5: accept-credit accounting.  (1) `push_accepts` decrements the credit
exactly once per accept entry pushed (pushing `min count sqFree` entries);
(2) processing a completion increments the credit exactly when it is a
non-negative-result completion dispatched through the registered `Accept`
state, by exactly 1, and leaves it unchanged otherwise; (3) along every
reachable interleaving of those two transitions, credit plus accepts
outstanding on the ring never exceeds the configured capacity. -/
theorem c5_accept_credit_accounting :
    (∀ count f : Nat,
      (push_accepts_go count f).1 = count - (push_accepts_go count f).2.2.length ∧
      (push_accepts_go count f).2.2.length = min count f) ∧
    (∀ (st : EchoServerSt) (f : Nat) (cqe : Cqe) (out : CqeOut),
      handle_cqe st f cqe = .ok out →
      out.st.count = st.count +
        (if 0 ≤ cqe.result ∧ st.token_ops.get cqe.user_data = .ok (some OpType.Accept)
         then 1 else 0)) ∧
    (∀ cap count inflight : Nat,
      AcceptReach cap count inflight → count + inflight ≤ cap) := by
  refine ⟨?_, ?_, ?_⟩
  · intro count f
    obtain ⟨h1, h2, _, _⟩ := push_accepts_go_spec count f
    exact ⟨h1, h2⟩
  · intro st f cqe out h
    exact handle_cqe_count st f cqe out h
  · intro cap count inflight h
    exact acceptReach_bound h

/-- C5 witness: capacity 2 — after one push and its successful completion the
bound holds at the concrete reachable pair (2, 0); the concrete loop run
`push_accepts_go 3 5` pushes 3 entries; the concrete accept completion on the
fresh server raises the credit from 2 to 3 = 2 + 1. -/
theorem c5_accept_credit_accounting_witness :
    (push_accepts_go 3 5).1 = 3 - (push_accepts_go 3 5).2.2.length ∧
    ({ fd := 3, count := 3,
       token_ops := ⟨[OpType.Accept, OpType.Poll 9], [3]⟩ } : EchoServerSt).count
      = (EchoServer.new 2 3).count +
        (if 0 ≤ (9 : Int) ∧ (EchoServer.new 2 3).token_ops.get 0
            = .ok (some OpType.Accept) then 1 else 0) ∧
    (2 : Nat) + 0 ≤ 2 :=
  ⟨(c5_accept_credit_accounting.1 3 5).1,
   by
    have h := c5_accept_credit_accounting.2.1 (EchoServer.new 2 3) 8 ⟨9, 0⟩
      ⟨{ fd := 3, count := 3, token_ops := ⟨[OpType.Accept, OpType.Poll 9], [3]⟩ },
       7, [Sqe.poll_add 9 1], [], []⟩ (by decide)
    exact h,
   c5_accept_credit_accounting.2.2 2 2 0
     (AcceptReach.complete_accept (AcceptReach.push AcceptReach.init (by omega)) (by omega))⟩

/-! ## C6 -/

theorem insertMany_cons_fst {T : Type} (s : Slab T) (v : T) (vs : List T) :
    (Slab.insertMany s (v :: vs)).1
      = (s.insert v).1 :: (Slab.insertMany (s.insert v).2 vs).1 := rfl

theorem insertMany_cons_snd {T : Type} (s : Slab T) (v : T) (vs : List T) :
    (Slab.insertMany s (v :: vs)).2 = (Slab.insertMany (s.insert v).2 vs).2 := rfl

/-- Filling an already-full slab appends every value: the length grows by the
number of inserts and the occupancy stays the full prefix. -/
theorem insertMany_full {T : Type} (vs : List T) :
    ∀ (s : Slab T), s.Wf → (∀ i, s.bit i = decide (i < s.inner.length)) →
    (Slab.insertMany s vs).2.inner.length = s.inner.length + vs.length ∧
    (Slab.insertMany s vs).2.Wf ∧
    (∀ i, (Slab.insertMany s vs).2.bit i = decide (i < s.inner.length + vs.length)) := by
  induction vs with
  | nil =>
    intro s hWf hbit
    exact ⟨by simp [Slab.insertMany], by simpa [Slab.insertMany] using hWf,
           by simpa [Slab.insertMany] using hbit⟩
  | cons v vs ih =>
    intro s hWf hbit
    have hgf : s.get_free = none := by
      cases hgf : s.get_free with
      | none => rfl
      | some m =>
        obtain ⟨hbm, hmlen, _⟩ := get_free_eq_some hgf
        rw [hbit m] at hbm
        simp [hmlen] at hbm
    obtain ⟨h1, hlen, hbitS, _, hWfS⟩ := insert_spec_append hWf hgf v
    have hbit1 : ∀ i, (s.insert v).2.bit i = decide (i < (s.insert v).2.inner.length) := by
      intro i
      rw [hbitS i, hlen]
      by_cases heq : i = s.inner.length
      · simp [heq]
      · rw [if_neg heq, hbit i]
        simp only [decide_eq_decide]
        omega
    obtain ⟨ihlen, ihwf, ihbit⟩ := ih (s.insert v).2 hWfS hbit1
    rw [insertMany_cons_snd]
    refine ⟨?_, ihwf, ?_⟩
    · rw [ihlen, hlen]
      simp [List.length_cons]
      omega
    · intro i
      rw [ihbit i, hlen]
      simp only [decide_eq_decide, List.length_cons]
      omega

theorem freeMany_cons {T : Type} (s : Slab T) (a : Nat) (hs : List Nat) :
    Slab.freeMany s (a :: hs) = Slab.freeMany (s.mark_free a) hs := rfl

theorem freeMany_inner {T : Type} (hs : List Nat) :
    ∀ (s : Slab T), (Slab.freeMany s hs).inner = s.inner := by
  induction hs with
  | nil => intro s; rfl
  | cons a hs ih =>
    intro s
    rw [freeMany_cons, ih, mark_free_inner]

theorem freeMany_bitmap_length {T : Type} (hs : List Nat) :
    ∀ (s : Slab T), (Slab.freeMany s hs).bitmap.length = s.bitmap.length := by
  induction hs with
  | nil => intro s; rfl
  | cons a hs ih =>
    intro s
    rw [freeMany_cons, ih, mark_free_bitmap_length]

theorem freeMany_wf {T : Type} {s : Slab T} (hWf : s.Wf) (hs : List Nat) :
    (Slab.freeMany s hs).Wf := by
  unfold Slab.Wf at hWf ⊢
  rw [freeMany_inner, freeMany_bitmap_length]
  exact hWf

theorem bit_freeMany {T : Type} (hs : List Nat) :
    ∀ (s : Slab T) (i : Nat),
    (Slab.freeMany s hs).bit i = if i ∈ hs then false else s.bit i := by
  induction hs with
  | nil =>
    intro s i
    simp [Slab.freeMany]
  | cons a hs ih =>
    intro s i
    rw [freeMany_cons, ih, bit_mark_free]
    by_cases hmem : i ∈ hs
    · simp [hmem]
    · by_cases heq : i = a
      · simp [heq]
      · simp [hmem, heq]

/-- Inserting exactly as many values as there are freed in-bounds slots
returns exactly those slots (each insert lands on the least free one). -/
theorem insertMany_reuse {T : Type} (ws : List T) :
    ∀ (s : Slab T) (N : Nat) (R : Finset Nat), s.Wf → s.inner.length = N →
    (∀ i, s.bit i = decide (i < N ∧ i ∉ R)) → (∀ r ∈ R, r < N) →
    ws.length = R.card →
    (Slab.insertMany s ws).1.toFinset = R ∧
    (Slab.insertMany s ws).2.inner.length = N ∧
    (Slab.insertMany s ws).1.Nodup ∧
    (∀ h ∈ (Slab.insertMany s ws).1, h < N) := by
  induction ws with
  | nil =>
    intro s N R hWf hlen hbit hRN hcard
    have hR : R = ∅ := Finset.card_eq_zero.mp (by simp at hcard; omega)
    subst hR
    exact ⟨by simp [Slab.insertMany], by simpa [Slab.insertMany] using hlen,
           by simp [Slab.insertMany], by simp [Slab.insertMany]⟩
  | cons w ws ih =>
    intro s N R hWf hlen hbit hRN hcard
    have hNe : R.Nonempty := Finset.card_pos.mp (by
      rw [List.length_cons] at hcard
      omega)
    set m := R.min' hNe with hm
    have hmR : m ∈ R := Finset.min'_mem R hNe
    have hmN : m < N := hRN m hmR
    have hgf : s.get_free = some m := by
      cases hgf : s.get_free with
      | none =>
        exfalso
        have := get_free_eq_none hWf hgf m (by omega)
        rw [hbit m] at this
        simp at this
        exact absurd hmR this.2
      | some a =>
        obtain ⟨hba, haN, hbelow⟩ := get_free_eq_some hgf
        have haR : a ∈ R := by
          rw [hbit a] at hba
          simp at hba
          exact hba (by omega)
        have hma : m ≤ a := Finset.min'_le R a haR
        have hnotlt : ¬ m < a := by
          intro hc
          have hcon := hbelow m hc
          rw [hbit m] at hcon
          simp at hcon
          exact absurd hmR hcon.2
        have : a = m := by omega
        rw [this]
    obtain ⟨h1, hlenS, hbitS, _, hWfS⟩ := insert_spec_reuse hWf hgf w
    have hbit1 : ∀ i, (s.insert w).2.bit i = decide (i < N ∧ i ∉ R.erase m) := by
      intro i
      rw [hbitS i]
      by_cases heq : i = m
      · subst heq
        simp [hmN]
      · rw [if_neg heq, hbit i]
        simp only [decide_eq_decide]
        constructor
        · rintro ⟨hiN, hiR⟩
          exact ⟨hiN, fun hc => hiR (Finset.mem_of_mem_erase hc)⟩
        · rintro ⟨hiN, hiE⟩
          exact ⟨hiN, fun hc => hiE (Finset.mem_erase.mpr ⟨heq, hc⟩)⟩
    have hcard1 : ws.length = (R.erase m).card := by
      rw [Finset.card_erase_of_mem hmR]
      rw [List.length_cons] at hcard
      omega
    have hRN1 : ∀ r ∈ R.erase m, r < N :=
      fun r hr => hRN r (Finset.mem_of_mem_erase hr)
    obtain ⟨ihset, ihlen, ihnodup, ihlt⟩ :=
      ih (s.insert w).2 N (R.erase m) hWfS (by omega) hbit1 hRN1 hcard1
    rw [insertMany_cons_fst, insertMany_cons_snd, h1]
    refine ⟨?_, ihlen, ?_, ?_⟩
    · rw [List.toFinset_cons, ihset]
      exact Finset.insert_erase hmR
    · rw [List.nodup_cons]
      refine ⟨fun hc => ?_, ihnodup⟩
      have : m ∈ (Slab.insertMany (s.insert w).2 ws).1.toFinset :=
        List.mem_toFinset.mpr hc
      rw [ihset] at this
      exact absurd rfl (Finset.mem_erase.mp this).1
    · intro a ha
      rcases List.mem_cons.mp ha with rfl | ha2
      · exact hmN
      · exact ihlt a ha2

/-- C6: reuse-before-grow.  Insert `N` values into a fresh table of any
capacity (the handles are then `0..N-1`), free any duplicate-free set `F` of
`M < N` of them, then insert `M` more values: the returned handles are exactly
the freed set `F`, every one of them lies below the original high-water mark
`N`, and the table's length is still `N` — no index beyond the high-water mark
gets allocated. -/
theorem c6_reuse_before_grow {T : Type} (cap : Nat) (vs : List T) (F : List Nat)
    (ws : List T)
    (hnodup : F.Nodup)
    (hFN : ∀ h ∈ F, h < vs.length)
    (hM : F.length < vs.length)
    (hws : ws.length = F.length) :
    (Slab.insertMany
        (Slab.freeMany (Slab.insertMany (Slab.with_capacity cap) vs).2 F) ws).1.toFinset
      = F.toFinset ∧
    (Slab.insertMany
        (Slab.freeMany (Slab.insertMany (Slab.with_capacity cap) vs).2 F) ws).2.inner.length
      = vs.length ∧
    (Slab.insertMany
        (Slab.freeMany (Slab.insertMany (Slab.with_capacity cap) vs).2 F) ws).1.Nodup ∧
    ∀ h ∈ (Slab.insertMany
        (Slab.freeMany (Slab.insertMany (Slab.with_capacity cap) vs).2 F) ws).1,
      h < vs.length := by
  set N := vs.length with hN
  obtain ⟨hlen1, hwf1, hbit1⟩ := insertMany_full vs (Slab.with_capacity cap)
    (with_capacity_wf cap) (fun i => by rw [bit_with_capacity]; simp [Slab.with_capacity])
  set s1 := (Slab.insertMany (Slab.with_capacity cap : Slab T) vs).2 with hs1
  have hlen1N : s1.inner.length = N := by
    rw [hlen1]
    simp [Slab.with_capacity]
  have hbit1N : ∀ i, s1.bit i = decide (i < N) := by
    intro i
    rw [hbit1 i]
    have : ((Slab.with_capacity cap : Slab T).inner.length + vs.length) = N := by
      simp [Slab.with_capacity]
    rw [this]
  have hwf2 : (Slab.freeMany s1 F).Wf := freeMany_wf hwf1 F
  have hlen2 : (Slab.freeMany s1 F).inner.length = N := by
    rw [freeMany_inner]
    exact hlen1N
  have hbit2 : ∀ i, (Slab.freeMany s1 F).bit i = decide (i < N ∧ i ∉ F.toFinset) := by
    intro i
    rw [bit_freeMany F s1 i]
    by_cases hmem : i ∈ F
    · simp [hmem]
    · rw [if_neg hmem, hbit1N i]
      simp only [decide_eq_decide]
      constructor
      · intro hi
        exact ⟨hi, fun hc => hmem (List.mem_toFinset.mp hc)⟩
      · intro hi
        exact hi.1
  have hFN2 : ∀ r ∈ F.toFinset, r < N :=
    fun r hr => hFN r (List.mem_toFinset.mp hr)
  have hcard : ws.length = F.toFinset.card := by
    rw [List.toFinset_card_of_nodup hnodup]
    exact hws
  exact insertMany_reuse ws (Slab.freeMany s1 F) N F.toFinset hwf2 hlen2 hbit2 hFN2 hcard

/-- C6 witness: capacity 4, insert three values (handles 0, 1, 2), free handle
1, insert one more value: it lands exactly on handle 1, no growth past length
3. -/
theorem c6_reuse_before_grow_witness :
    (Slab.insertMany
        (Slab.freeMany (Slab.insertMany (Slab.with_capacity 4) [10, 20, 30]).2 [1])
        [99]).1.toFinset = ([1] : List Nat).toFinset ∧
    (Slab.insertMany
        (Slab.freeMany (Slab.insertMany (Slab.with_capacity 4) [10, 20, 30]).2 [1])
        [99]).2.inner.length = 3 ∧
    (Slab.insertMany
        (Slab.freeMany (Slab.insertMany (Slab.with_capacity 4) [10, 20, 30]).2 [1])
        [99]).1.Nodup ∧
    ∀ h ∈ (Slab.insertMany
        (Slab.freeMany (Slab.insertMany (Slab.with_capacity 4) [10, 20, 30]).2 [1])
        [99]).1, h < 3 :=
  c6_reuse_before_grow 4 [10, 20, 30] [1] [99] (by decide) (by decide) (by decide)
    (by decide)

end IoUringEcho
